import Mathlib

/-!
Shallow embedding of the two LRU-cache variants of this repository:

* `Lru`      models `src/lru.go`      (package `lru`): the eviction pass
  `checkWithLocked` removes the front while the cache is over capacity OR the
  front entry is expired, and runs (deferred) at the end of every `Update`
  and every `Get`.
* `LruCache` models `src/lru_cache.go` (package `cache`): the eviction pass
  `checkWithLocked` removes the front only while the cache is over capacity
  (it never looks at expiry), and runs only when `Update` inserts a new key;
  this variant also provides `Delete`.

Modelling choices, shared by both variants:

* Go's `*list.List` of `*entry` (front = least recently used, back = most
  recently used) becomes a `List (Entry α)`; `PushBack` is `· ++ [e]`,
  `MoveToBack ele` is `eraseP` of that element followed by appending it,
  `Remove ele` is `eraseP` of that element.
* Go's `map[string]*list.Element` stores, for each live key, a pointer to the
  list element holding the entry with that same key.  We model the map as the
  `List String` of its keys (field `lruMap`), updated exactly at the program
  points where the Go code inserts into / deletes from the map.  Dereferencing
  the stored element pointer is modelled by `List.find? (fun e => e.key == k)`
  on the recency list: under the bijection invariant (proved below) the list
  holds exactly one entry per mapped key, so this recovers precisely the entry
  the Go pointer designates.  The `find? = none` fallback branches are
  unreachable on states satisfying the invariant.
* `time.Now().Unix()` is an explicit `now : Int` parameter of each operation
  (one timestamp per operation, matching the seconds resolution of the code).
* Go `int64` counters become `Int` (no overflow is reachable in this model's
  claims; the code's counters only ever move by ±1 per operation).
* `Get` returns `Option α` (`none` = the `NotFound` error, with `nil` value),
  `Delete` returns `Bool` (`true` = `nil` error, `false` = `NotFound`).
-/

/-- One stored key/value pair, mirroring `type entry` of both Go files:
`key string`, `value interface{}` (a type parameter here), `createAt int64`. -/
structure Entry (α : Type) where
  key : String
  value : α
  createAt : Int
  deriving DecidableEq

namespace Lru

/-- The cache state of `src/lru.go` (`type LRUCache`): `maxCount`, `ttl`,
`lruList` (front = LRU), `lruMap` (modelled by its key list), and the
counters `reqCount`, `hitCount`, `keyCount`.  The mutex is not modelled:
every operation runs atomically under it. -/
structure LRUCache (α : Type) where
  maxCount : Int
  ttl : Int
  lruList : List (Entry α)
  lruMap : List String
  reqCount : Int
  hitCount : Int
  keyCount : Int
  deriving DecidableEq

/-- `NewLRUCache` of `src/lru.go`: empty list and map, zero counters. -/
def NewLRUCache (α : Type) (maxCount ttl : Int) : LRUCache α :=
  { maxCount := maxCount, ttl := ttl, lruList := [], lruMap := [],
    reqCount := 0, hitCount := 0, keyCount := 0 }

/-- The loop body of `checkWithLocked` in `src/lru.go` (lines 85–98), as a
recursion on the recency list: while the front exists, stop when
`keyCount <= maxCount && now < front.createAt + ttl`, otherwise remove the
front from the list, delete its key from the map, and decrement `keyCount`. -/
def sweep (now maxCount ttl : Int) :
    List (Entry α) → List String → Int → List (Entry α) × List String × Int
  | [], m, cnt => ([], m, cnt)
  | e :: rest, m, cnt =>
    if cnt ≤ maxCount ∧ now < e.createAt + ttl then (e :: rest, m, cnt)
    else sweep now maxCount ttl rest (m.erase e.key) (cnt - 1)

/-- `checkWithLocked` of `src/lru.go`: run the capacity-and-expiry sweep on
the front of the recency list. -/
def checkWithLocked (now : Int) (c : LRUCache α) : LRUCache α :=
  let r := sweep now c.maxCount c.ttl c.lruList c.lruMap c.keyCount
  { c with lruList := r.1, lruMap := r.2.1, keyCount := r.2.2 }

/-- `Update` of `src/lru.go` (lines 40–61).  Existing key: overwrite value,
refresh `createAt`, move the element to the back.  New key: push a fresh
entry at the back, insert the key into the map, increment `keyCount`.
Either way the deferred `checkWithLocked` runs before the lock is released. -/
def Update (now : Int) (c : LRUCache α) (key : String) (value : α) :
    LRUCache α :=
  if key ∈ c.lruMap then
    checkWithLocked now
      { c with lruList := c.lruList.eraseP (fun e => e.key == key)
                            ++ [⟨key, value, now⟩] }
  else
    checkWithLocked now
      { c with lruList := c.lruList ++ [⟨key, value, now⟩],
               lruMap := key :: c.lruMap,
               keyCount := c.keyCount + 1 }

/-- `Get` of `src/lru.go` (lines 63–83).  Always increments `reqCount`.
On a fresh hit (`createAt + ttl > now`): increment `hitCount`, move the
element to the back, return its value.  On an expired entry: remove it from
list and map (the Go code deletes `item.key`), decrement `keyCount`, return
`NotFound`.  The deferred `checkWithLocked` runs on every path. -/
def Get (now : Int) (c : LRUCache α) (key : String) :
    Option α × LRUCache α :=
  if key ∈ c.lruMap then
    match c.lruList.find? (fun e => e.key == key) with
    | some item =>
      if item.createAt + c.ttl > now then
        (some item.value,
         checkWithLocked now
           { c with reqCount := c.reqCount + 1,
                    hitCount := c.hitCount + 1,
                    lruList := c.lruList.eraseP (fun e => e.key == key)
                                 ++ [item] })
      else
        (none,
         checkWithLocked now
           { c with reqCount := c.reqCount + 1,
                    lruList := c.lruList.eraseP (fun e => e.key == key),
                    lruMap := c.lruMap.erase item.key,
                    keyCount := c.keyCount - 1 })
    | none =>
      (none, checkWithLocked now { c with reqCount := c.reqCount + 1 })
  else (none, checkWithLocked now { c with reqCount := c.reqCount + 1 })

/-- `GetReqCount` of `src/lru.go`. -/
def GetReqCount (c : LRUCache α) : Int := c.reqCount

/-- `GetHitCount` of `src/lru.go`. -/
def GetHitCount (c : LRUCache α) : Int := c.hitCount

/-- `GetKeysCount` of `src/lru.go` (the `LiveCount()` accessor of the spec). -/
def GetKeysCount (c : LRUCache α) : Int := c.keyCount

/-- The consistency invariant of the spec (§3): the map keys are exactly the
keys of the recency list (a bijection: same multiset, no duplicates), and
`keyCount` equals the true size of the structures. -/
abbrev Inv (c : LRUCache α) : Prop :=
  c.lruMap.Perm (c.lruList.map Entry.key) ∧
  (c.lruList.map Entry.key).Nodup ∧
  c.keyCount = (c.lruList.length : Int)

end Lru

namespace LruCache

/-- The cache state of `src/lru_cache.go` (`type LRUCache`): `maxCount`,
`ttl`, `lruList`, `lruMap` (modelled by its key list), `keyCount`, and the
counters `totalReqTimes`, `totalHitTimes`. -/
structure LRUCache (α : Type) where
  maxCount : Int
  ttl : Int
  lruList : List (Entry α)
  lruMap : List String
  keyCount : Int
  totalReqTimes : Int
  totalHitTimes : Int
  deriving DecidableEq

/-- `NewLRUCache` of `src/lru_cache.go`: empty list and map, zero counters. -/
def NewLRUCache (α : Type) (maxCount ttl : Int) : LRUCache α :=
  { maxCount := maxCount, ttl := ttl, lruList := [], lruMap := [],
    keyCount := 0, totalReqTimes := 0, totalHitTimes := 0 }

/-- The loop body of `checkWithLocked` in `src/lru_cache.go` (lines 94–102):
`for keyCount > maxCount && front != nil`, remove the front from the list,
delete its key from the map, decrement `keyCount`.  No expiry check. -/
def sweep (maxCount : Int) :
    List (Entry α) → List String → Int → List (Entry α) × List String × Int
  | [], m, cnt => ([], m, cnt)
  | e :: rest, m, cnt =>
    if cnt > maxCount then sweep maxCount rest (m.erase e.key) (cnt - 1)
    else (e :: rest, m, cnt)

/-- `checkWithLocked` of `src/lru_cache.go`: the capacity-only sweep. -/
def checkWithLocked (c : LRUCache α) : LRUCache α :=
  let r := sweep c.maxCount c.lruList c.lruMap c.keyCount
  { c with lruList := r.1, lruMap := r.2.1, keyCount := r.2.2 }

/-- `Update` of `src/lru_cache.go` (lines 40–59).  Existing key: overwrite
value, refresh `createAt`, move to back — no eviction pass.  New key: push a
fresh entry, insert the key, increment `keyCount`, then run
`checkWithLocked` (the pass runs only on this branch). -/
def Update (now : Int) (c : LRUCache α) (key : String) (value : α) :
    LRUCache α :=
  if key ∈ c.lruMap then
    { c with lruList := c.lruList.eraseP (fun e => e.key == key)
                          ++ [⟨key, value, now⟩] }
  else
    checkWithLocked
      { c with lruList := c.lruList ++ [⟨key, value, now⟩],
               lruMap := key :: c.lruMap,
               keyCount := c.keyCount + 1 }

/-- `Get` of `src/lru_cache.go` (lines 61–78).  Always increments
`totalReqTimes`.  Fresh hit: increment `totalHitTimes`, move to back, return
the value.  Expired entry: remove it from list and map (the Go code deletes
`key`), decrement `keyCount`, return `NotFound`.  No eviction pass runs. -/
def Get (now : Int) (c : LRUCache α) (key : String) :
    Option α × LRUCache α :=
  if key ∈ c.lruMap then
    match c.lruList.find? (fun e => e.key == key) with
    | some item =>
      if item.createAt + c.ttl > now then
        (some item.value,
         { c with totalReqTimes := c.totalReqTimes + 1,
                  totalHitTimes := c.totalHitTimes + 1,
                  lruList := c.lruList.eraseP (fun e => e.key == key)
                               ++ [item] })
      else
        (none,
         { c with totalReqTimes := c.totalReqTimes + 1,
                  lruList := c.lruList.eraseP (fun e => e.key == key),
                  lruMap := c.lruMap.erase key,
                  keyCount := c.keyCount - 1 })
    | none => (none, { c with totalReqTimes := c.totalReqTimes + 1 })
  else (none, { c with totalReqTimes := c.totalReqTimes + 1 })

/-- `Delete` of `src/lru_cache.go` (lines 80–92).  Always increments
`totalReqTimes`.  If the key is present: increment `totalHitTimes`, remove
the element from the list, delete the key from the map, decrement
`keyCount`, return success (`true`).  Otherwise return `NotFound` (`false`).
No eviction pass runs. -/
def Delete (c : LRUCache α) (key : String) : Bool × LRUCache α :=
  if key ∈ c.lruMap then
    (true,
     { c with totalReqTimes := c.totalReqTimes + 1,
              totalHitTimes := c.totalHitTimes + 1,
              lruList := c.lruList.eraseP (fun e => e.key == key),
              lruMap := c.lruMap.erase key,
              keyCount := c.keyCount - 1 })
  else (false, { c with totalReqTimes := c.totalReqTimes + 1 })

/-- `GetKeyCount` of `src/lru_cache.go` (the `LiveCount()` accessor). -/
def GetKeyCount (c : LRUCache α) : Int := c.keyCount

/-- `GetTotalReqTimes` of `src/lru_cache.go`. -/
def GetTotalReqTimes (c : LRUCache α) : Int := c.totalReqTimes

/-- `GetTotalHitTimes` of `src/lru_cache.go`. -/
def GetTotalHitTimes (c : LRUCache α) : Int := c.totalHitTimes

/-- The consistency invariant of the spec (§3) for this variant: map keys in
bijection with list keys, and `keyCount` equal to the true size. -/
abbrev Inv (c : LRUCache α) : Prop :=
  c.lruMap.Perm (c.lruList.map Entry.key) ∧
  (c.lruList.map Entry.key).Nodup ∧
  c.keyCount = (c.lruList.length : Int)

end LruCache

/-! ### Shared list lemmas -/

theorem map_key_eraseP {α : Type} (k : String) (l : List (Entry α)) :
    (l.eraseP (fun e => e.key == k)).map Entry.key
      = (l.map Entry.key).erase k := by
  induction l with
  | nil => rfl
  | cons e rest ih =>
    by_cases h : e.key = k
    · simp [List.eraseP_cons, List.erase_cons, h]
    · simp [List.eraseP_cons, List.erase_cons, h, ih]

theorem key_ne_of_mem_eraseP {α : Type} {l : List (Entry α)} {k : String}
    (hN : (l.map Entry.key).Nodup) {e : Entry α}
    (he : e ∈ l.eraseP (fun x => x.key == k)) : e.key ≠ k := by
  intro hk
  have hm : e.key ∈ (l.eraseP (fun x => x.key == k)).map Entry.key :=
    List.mem_map_of_mem _ he
  rw [map_key_eraseP, hk] at hm
  exact ((hN.mem_erase_iff).1 hm).1 rfl

theorem find?_key_eq_some {α : Type} {l : List (Entry α)} {k : String}
    (h : k ∈ l.map Entry.key) :
    ∃ e, l.find? (fun x => x.key == k) = some e ∧ e.key = k ∧ e ∈ l := by
  obtain ⟨e, he, hk⟩ := List.mem_map.1 h
  have hsome : (l.find? (fun x => x.key == k)).isSome := by
    rw [List.find?_isSome]
    exact ⟨e, he, by simp [hk]⟩
  obtain ⟨e', he'⟩ := Option.isSome_iff_exists.1 hsome
  exact ⟨e', he', by simpa using List.find?_some he',
    List.mem_of_find?_eq_some he'⟩

/-- Invariant of the (list, map-keys, count) triple manipulated by both
variants' eviction sweeps. -/
abbrev TripleInv {α : Type} (t : List (Entry α) × List String × Int) : Prop :=
  t.2.1.Perm (t.1.map Entry.key) ∧ (t.1.map Entry.key).Nodup ∧
  t.2.2 = (t.1.length : Int)

theorem tripleInv_moveToBack {α : Type} {l : List (Entry α)} {m : List String}
    {cnt : Int} {k : String} (x : Entry α) (hx : x.key = k) (hmem : k ∈ m)
    (hP : m.Perm (l.map Entry.key)) (hN : (l.map Entry.key).Nodup)
    (hC : cnt = (l.length : Int)) :
    TripleInv (l.eraseP (fun e => e.key == k) ++ [x], m, cnt) := by
  have hkl : k ∈ l.map Entry.key := hP.mem_iff.1 hmem
  have hlen : 1 ≤ l.length := by
    cases l with
    | nil => simp at hkl
    | cons _ _ => simp
  have hkeys : (l.eraseP (fun e => e.key == k) ++ [x]).map Entry.key
      = (l.map Entry.key).erase k ++ [k] := by
    simp [map_key_eraseP, hx]
  have hperm : ((l.map Entry.key).erase k ++ [k]).Perm (l.map Entry.key) :=
    (List.perm_append_singleton _ _).trans (List.perm_cons_erase hkl).symm
  refine ⟨?_, ?_, ?_⟩
  · rw [hkeys]
    exact hP.trans hperm.symm
  · rw [hkeys]
    exact hperm.nodup_iff.2 hN
  · have : (l.eraseP (fun e => e.key == k)).length = l.length - 1 := by
      have := congrArg List.length (map_key_eraseP (α := α) k l)
      simpa [List.length_erase_of_mem hkl] using this
    simp only [List.length_append, this, List.length_cons, List.length_nil]
    omega

theorem tripleInv_remove {α : Type} {l : List (Entry α)} {m : List String}
    {cnt : Int} {k : String} (hmem : k ∈ m)
    (hP : m.Perm (l.map Entry.key)) (hN : (l.map Entry.key).Nodup)
    (hC : cnt = (l.length : Int)) :
    TripleInv (l.eraseP (fun e => e.key == k), m.erase k, cnt - 1) := by
  have hkl : k ∈ l.map Entry.key := hP.mem_iff.1 hmem
  have hlen : 1 ≤ l.length := by
    cases l with
    | nil => simp at hkl
    | cons _ _ => simp
  refine ⟨?_, ?_, ?_⟩
  · rw [map_key_eraseP]
    exact hP.erase k
  · rw [map_key_eraseP]
    exact hN.erase k
  · have : (l.eraseP (fun e => e.key == k)).length = l.length - 1 := by
      have := congrArg List.length (map_key_eraseP (α := α) k l)
      simpa [List.length_erase_of_mem hkl] using this
    simp only [this]
    omega

theorem tripleInv_insertNew {α : Type} {l : List (Entry α)} {m : List String}
    {cnt : Int} {k : String} (x : Entry α) (hx : x.key = k) (hmem : k ∉ m)
    (hP : m.Perm (l.map Entry.key)) (hN : (l.map Entry.key).Nodup)
    (hC : cnt = (l.length : Int)) :
    TripleInv (l ++ [x], k :: m, cnt + 1) := by
  have hkl : k ∉ l.map Entry.key := fun h => hmem (hP.mem_iff.2 h)
  have hkeys : (l ++ [x]).map Entry.key = l.map Entry.key ++ [k] := by
    simp [hx]
  refine ⟨?_, ?_, ?_⟩
  · rw [hkeys]
    exact (hP.cons k).trans (List.perm_append_singleton _ _).symm
  · rw [hkeys]
    exact (List.perm_append_singleton k _).nodup_iff.2
      (List.nodup_cons.2 ⟨hkl, hN⟩)
  · simp only [List.length_append, List.length_cons, List.length_nil]
    omega

/-! ### Invariant preservation, `src/lru.go` variant -/

namespace Lru

theorem sweep_tripleInv {α : Type} (now maxCount ttl : Int) :
    ∀ (l : List (Entry α)) (m : List String) (cnt : Int),
      TripleInv (l, m, cnt) → TripleInv (sweep now maxCount ttl l m cnt) := by
  intro l
  induction l with
  | nil => intro m cnt h; exact h
  | cons e rest ih =>
    intro m cnt h
    obtain ⟨hP, hN, hC⟩ := h
    rw [sweep]
    split
    · exact ⟨hP, hN, hC⟩
    · apply ih
      refine ⟨?_, ?_, ?_⟩
      · have h2 := hP.erase e.key
        simpa [List.erase_cons_head] using h2
      · exact (List.nodup_cons.1 (by simpa using hN)).2
      · show cnt - 1 = (rest.length : Int)
        simp only [List.length_cons] at hC
        omega

theorem sweep_mem {α : Type} (now maxCount ttl : Int) :
    ∀ (l : List (Entry α)) (m : List String) (cnt : Int) {e : Entry α},
      e ∈ (sweep now maxCount ttl l m cnt).1 → e ∈ l := by
  intro l
  induction l with
  | nil => intro m cnt e h; exact absurd h (by simp [sweep])
  | cons x rest ih =>
    intro m cnt e h
    rw [sweep] at h
    split at h
    · exact h
    · exact List.mem_cons_of_mem x (ih _ _ h)

theorem sweep_cnt_le {α : Type} (now maxCount ttl : Int) :
    ∀ (l : List (Entry α)) (m : List String) (cnt : Int),
      (sweep now maxCount ttl l m cnt).2.2 ≤ cnt := by
  intro l
  induction l with
  | nil => intro m cnt; simp [sweep]
  | cons x rest ih =>
    intro m cnt
    rw [sweep]
    split
    · simp
    · exact le_trans (ih _ _) (by omega)

theorem sweep_stop {α : Type} (now maxCount ttl : Int) :
    ∀ (l : List (Entry α)) (m : List String) (cnt : Int),
      (sweep now maxCount ttl l m cnt).1 = [] ∨
      ((sweep now maxCount ttl l m cnt).2.2 ≤ maxCount ∧
       ∀ e ∈ (sweep now maxCount ttl l m cnt).1.head?,
         now < e.createAt + ttl) := by
  intro l
  induction l with
  | nil => intro m cnt; left; simp [sweep]
  | cons x rest ih =>
    intro m cnt
    rw [sweep]
    split
    next hcond =>
      right
      exact ⟨hcond.1, by intro e he; simp at he; rw [← he]; exact hcond.2⟩
    · exact ih _ _

theorem inv_checkWithLocked {α : Type} (now : Int) (c : LRUCache α)
    (h : Inv c) : Inv (checkWithLocked now c) :=
  sweep_tripleInv now c.maxCount c.ttl c.lruList c.lruMap c.keyCount
    ⟨h.1, h.2.1, h.2.2⟩

theorem inv_Update {α : Type} (now : Int) (c : LRUCache α) (k : String)
    (v : α) (h : Inv c) : Inv (Update now c k v) := by
  obtain ⟨hP, hN, hC⟩ := h
  unfold Update
  split
  next hmem =>
    exact inv_checkWithLocked now _
      (tripleInv_moveToBack ⟨k, v, now⟩ rfl hmem hP hN hC)
  next hmem =>
    exact inv_checkWithLocked now _
      (tripleInv_insertNew ⟨k, v, now⟩ rfl hmem hP hN hC)

theorem inv_Get {α : Type} (now : Int) (c : LRUCache α) (k : String)
    (h : Inv c) : Inv (Get now c k).2 := by
  obtain ⟨hP, hN, hC⟩ := h
  unfold Get
  split
  next hmem =>
    split
    next item hfind =>
      have hk : item.key = k := by simpa using List.find?_some hfind
      split
      · exact inv_checkWithLocked now _
          (tripleInv_moveToBack item hk hmem hP hN hC)
      · exact inv_checkWithLocked now _
          (by rw [hk]; exact tripleInv_remove hmem hP hN hC)
    next hfind => exact inv_checkWithLocked now _ ⟨hP, hN, hC⟩
  next hmem => exact inv_checkWithLocked now _ ⟨hP, hN, hC⟩

end Lru

/-! ### Invariant preservation, `src/lru_cache.go` variant -/

namespace LruCache

theorem sweep_tripleInv' {α : Type} (maxCount : Int) :
    ∀ (l : List (Entry α)) (m : List String) (cnt : Int),
      TripleInv (l, m, cnt) → TripleInv (sweep maxCount l m cnt) := by
  intro l
  induction l with
  | nil => intro m cnt h; exact h
  | cons e rest ih =>
    intro m cnt h
    obtain ⟨hP, hN, hC⟩ := h
    rw [sweep]
    split
    · apply ih
      refine ⟨?_, ?_, ?_⟩
      · have h2 := hP.erase e.key
        simpa [List.erase_cons_head] using h2
      · exact (List.nodup_cons.1 (by simpa using hN)).2
      · show cnt - 1 = (rest.length : Int)
        simp only [List.length_cons] at hC
        omega
    · exact ⟨hP, hN, hC⟩

theorem sweep_stop' {α : Type} (maxCount : Int) :
    ∀ (l : List (Entry α)) (m : List String) (cnt : Int),
      (sweep maxCount l m cnt).1 = [] ∨
      (sweep maxCount l m cnt).2.2 ≤ maxCount := by
  intro l
  induction l with
  | nil => intro m cnt; left; simp [sweep]
  | cons x rest ih =>
    intro m cnt
    rw [sweep]
    split
    · exact ih _ _
    next hcond =>
      right
      show cnt ≤ maxCount
      omega

theorem inv_checkWithLocked' {α : Type} (c : LRUCache α)
    (h : Inv c) : Inv (checkWithLocked c) :=
  sweep_tripleInv' c.maxCount c.lruList c.lruMap c.keyCount
    ⟨h.1, h.2.1, h.2.2⟩

theorem inv_Update' {α : Type} (now : Int) (c : LRUCache α) (k : String)
    (v : α) (h : Inv c) : Inv (Update now c k v) := by
  obtain ⟨hP, hN, hC⟩ := h
  unfold Update
  split
  next hmem =>
    exact tripleInv_moveToBack ⟨k, v, now⟩ rfl hmem hP hN hC
  next hmem =>
    exact inv_checkWithLocked' _
      (tripleInv_insertNew ⟨k, v, now⟩ rfl hmem hP hN hC)

theorem inv_Get' {α : Type} (now : Int) (c : LRUCache α) (k : String)
    (h : Inv c) : Inv (Get now c k).2 := by
  obtain ⟨hP, hN, hC⟩ := h
  unfold Get
  split
  next hmem =>
    split
    next item hfind =>
      have hk : item.key = k := by simpa using List.find?_some hfind
      split
      · exact tripleInv_moveToBack item hk hmem hP hN hC
      · exact tripleInv_remove hmem hP hN hC
    next hfind => exact ⟨hP, hN, hC⟩
  next hmem => exact ⟨hP, hN, hC⟩

theorem inv_Delete {α : Type} (c : LRUCache α) (k : String)
    (h : Inv c) : Inv (Delete c k).2 := by
  obtain ⟨hP, hN, hC⟩ := h
  unfold Delete
  split
  next hmem => exact tripleInv_remove hmem hP hN hC
  next hmem => exact ⟨hP, hN, hC⟩

end LruCache

/-! ### Step/stop characterizations of the two eviction passes -/

namespace Lru

theorem checkWithLocked_stop {α : Type} (now : Int) (c : LRUCache α)
    (e : Entry α) (rest : List (Entry α)) (hl : c.lruList = e :: rest)
    (h : c.keyCount ≤ c.maxCount ∧ now < e.createAt + c.ttl) :
    checkWithLocked now c = c := by
  cases c with
  | mk mx tl ll lm rq ht kc =>
    simp only at hl h
    subst hl
    simp only [checkWithLocked, sweep, if_pos h]

theorem checkWithLocked_step {α : Type} (now : Int) (c : LRUCache α)
    (e : Entry α) (rest : List (Entry α)) (hl : c.lruList = e :: rest)
    (h : ¬(c.keyCount ≤ c.maxCount ∧ now < e.createAt + c.ttl)) :
    checkWithLocked now c =
      checkWithLocked now
        { c with lruList := rest, lruMap := c.lruMap.erase e.key,
                 keyCount := c.keyCount - 1 } := by
  cases c with
  | mk mx tl ll lm rq ht kc =>
    simp only at hl h
    subst hl
    simp only [checkWithLocked, sweep, if_neg h]

theorem checkWithLocked_post {α : Type} (now : Int) (c : LRUCache α) :
    (checkWithLocked now c).lruList = [] ∨
    ((checkWithLocked now c).keyCount ≤ c.maxCount ∧
     ∀ e ∈ (checkWithLocked now c).lruList.head?,
       now < e.createAt + c.ttl) :=
  sweep_stop now c.maxCount c.ttl c.lruList c.lruMap c.keyCount

theorem checkWithLocked_keyCount_le {α : Type} (now : Int) (c : LRUCache α) :
    (checkWithLocked now c).keyCount ≤ c.keyCount :=
  sweep_cnt_le now c.maxCount c.ttl c.lruList c.lruMap c.keyCount

theorem checkWithLocked_reqCount {α : Type} (now : Int) (c : LRUCache α) :
    (checkWithLocked now c).reqCount = c.reqCount := rfl

theorem checkWithLocked_hitCount {α : Type} (now : Int) (c : LRUCache α) :
    (checkWithLocked now c).hitCount = c.hitCount := rfl

theorem checkWithLocked_mem {α : Type} (now : Int) (c : LRUCache α)
    {e : Entry α} (h : e ∈ (checkWithLocked now c).lruList) :
    e ∈ c.lruList :=
  sweep_mem now c.maxCount c.ttl c.lruList c.lruMap c.keyCount h

end Lru

namespace LruCache

theorem checkWithLocked_stop' {α : Type} (c : LRUCache α)
    (h : c.keyCount ≤ c.maxCount) : checkWithLocked c = c := by
  cases c with
  | mk mx tl ll lm kc rq ht =>
    simp only at h
    cases ll with
    | nil => simp only [checkWithLocked, sweep]
    | cons e rest =>
      simp only [checkWithLocked, sweep, if_neg (by omega : ¬kc > mx)]

theorem checkWithLocked_step' {α : Type} (c : LRUCache α)
    (e : Entry α) (rest : List (Entry α)) (hl : c.lruList = e :: rest)
    (h : c.keyCount > c.maxCount) :
    checkWithLocked c =
      checkWithLocked
        { c with lruList := rest, lruMap := c.lruMap.erase e.key,
                 keyCount := c.keyCount - 1 } := by
  cases c with
  | mk mx tl ll lm kc rq ht =>
    simp only at hl h
    subst hl
    simp only [checkWithLocked, sweep, if_pos h]

theorem checkWithLocked_post' {α : Type} (c : LRUCache α) :
    (checkWithLocked c).lruList = [] ∨
    (checkWithLocked c).keyCount ≤ c.maxCount :=
  sweep_stop' c.maxCount c.lruList c.lruMap c.keyCount

end LruCache

/-! ### Concrete states used by counterexamples and witnesses -/

/-- A state of the lazy (`src/lru_cache.go`) variant: key `"a"` inserted at
time 0 into a fresh cache with capacity 10 and `ttl = 1`.  At `now = 100`
its single entry is long expired but the cache is far under capacity. -/
def lazyOneEntry : LruCache.LRUCache Nat :=
  LruCache.Update 0 (LruCache.NewLRUCache Nat 10 1) "a" 7

/-- A state of the eager (`src/lru.go`) variant: key `"a"` inserted at time
0 into a fresh cache with capacity 10 and `ttl = 1`. -/
def eagerOneEntry : Lru.LRUCache Nat :=
  Lru.Update 0 (Lru.NewLRUCache Nat 10 1) "a" 7

/-- A state of the eager variant holding two entries, both inserted at time
0 with `ttl = 1` and capacity 10 ("a" in front, "b" behind). -/
def eagerTwoEntries : Lru.LRUCache Nat :=
  Lru.Update 0 (Lru.Update 0 (Lru.NewLRUCache Nat 10 1) "a" 7) "b" 8

/-! ### Claims -/

/-- C1, counterexample.  The claim quantifies over *every* invocation of the
eviction pass `checkWithLocked`, citing both source files; but the pass of
`src/lru_cache.go` never tests expiry.  In the state `lazyOneEntry`, at
`now = 100`, the front entry (createAt 0, ttl 1) is expired while the live
count (1) is within capacity (10), yet `checkWithLocked` removes nothing —
refuting "for every state in which the front entry is expired, the pass
removes it even when the live count is already within capacity". -/
theorem C1_counterexample :
    lazyOneEntry.lruList.head? = some ⟨"a", 7, 0⟩ ∧
    (⟨"a", 7, 0⟩ : Entry Nat).createAt + lazyOneEntry.ttl ≤ 100 ∧
    lazyOneEntry.keyCount ≤ lazyOneEntry.maxCount ∧
    LruCache.checkWithLocked lazyOneEntry = lazyOneEntry := by
  decide

/-- C1, amended.  In the `src/lru.go` variant, `checkWithLocked` repeatedly
removes the front entry from both index and recency list and decrements the
live count, stopping exactly when the live count is ≤ capacity and the
front is not expired (so an expired front is removed even within capacity,
and on exit any surviving front is unexpired and the count is within
capacity, unless the list was emptied).  In the `src/lru_cache.go` variant,
`checkWithLocked` removes the front only while the live count exceeds
capacity: it never tests expiry, and whenever the live count is ≤ capacity
it removes nothing, even when the front entry is expired. -/
theorem C1_eviction_pass_behavior :
    (∀ (α : Type) (now : Int) (c : Lru.LRUCache α) (e : Entry α)
       (rest : List (Entry α)), c.lruList = e :: rest →
       ((c.keyCount ≤ c.maxCount ∧ now < e.createAt + c.ttl →
           Lru.checkWithLocked now c = c) ∧
        (¬(c.keyCount ≤ c.maxCount ∧ now < e.createAt + c.ttl) →
           Lru.checkWithLocked now c =
             Lru.checkWithLocked now
               { c with lruList := rest, lruMap := c.lruMap.erase e.key,
                        keyCount := c.keyCount - 1 }))) ∧
    (∀ (α : Type) (now : Int) (c : Lru.LRUCache α),
       (Lru.checkWithLocked now c).lruList = [] ∨
       ((Lru.checkWithLocked now c).keyCount ≤ c.maxCount ∧
        ∀ e ∈ (Lru.checkWithLocked now c).lruList.head?,
          now < e.createAt + c.ttl)) ∧
    (∀ (α : Type) (c : LruCache.LRUCache α),
       c.keyCount ≤ c.maxCount → LruCache.checkWithLocked c = c) ∧
    (∀ (α : Type) (c : LruCache.LRUCache α) (e : Entry α)
       (rest : List (Entry α)), c.lruList = e :: rest →
       c.keyCount > c.maxCount →
       LruCache.checkWithLocked c =
         LruCache.checkWithLocked
           { c with lruList := rest, lruMap := c.lruMap.erase e.key,
                    keyCount := c.keyCount - 1 }) := by
  refine ⟨?_, ?_, ?_, ?_⟩
  · intro α now c e rest hl
    exact ⟨fun h => Lru.checkWithLocked_stop now c e rest hl h,
           fun h => Lru.checkWithLocked_step now c e rest hl h⟩
  · intro α now c
    exact Lru.checkWithLocked_post now c
  · intro α c h
    exact LruCache.checkWithLocked_stop' c h
  · intro α c e rest hl h
    exact LruCache.checkWithLocked_step' c e rest hl h

/-- C1, witness: the amended theorem applied at concrete inputs — the eager
pass keeps a fresh within-capacity front untouched, and the lazy pass keeps
`lazyOneEntry` untouched because its count is within capacity. -/
theorem C1_witness :
    Lru.checkWithLocked 0 (Lru.Update 0 (Lru.NewLRUCache Nat 10 100) "a" 1)
      = Lru.Update 0 (Lru.NewLRUCache Nat 10 100) "a" 1 ∧
    LruCache.checkWithLocked lazyOneEntry = lazyOneEntry :=
  ⟨(C1_eviction_pass_behavior.1 Nat 0 _ ⟨"a", 1, 0⟩ [] (by decide)).1
     (by decide),
   C1_eviction_pass_behavior.2.2.1 Nat lazyOneEntry (by decide)⟩

/-- C6: construction yields, and every public operation of both variants
preserves, the bijection invariant — the map keys are a permutation of the
recency-list keys with no duplicates and the live count equals the true
size — and under it the live count equals the size of the index. -/
theorem C6_bijection_invariant :
    (∀ (α : Type) (mc t : Int), Lru.Inv (Lru.NewLRUCache α mc t)) ∧
    (∀ (α : Type) (now : Int) (c : Lru.LRUCache α) (k : String) (v : α),
       Lru.Inv c → Lru.Inv (Lru.Update now c k v)) ∧
    (∀ (α : Type) (now : Int) (c : Lru.LRUCache α) (k : String),
       Lru.Inv c → Lru.Inv (Lru.Get now c k).2) ∧
    (∀ (α : Type) (c : Lru.LRUCache α), Lru.Inv c →
       Lru.GetKeysCount c = (c.lruMap.length : Int)) ∧
    (∀ (α : Type) (mc t : Int), LruCache.Inv (LruCache.NewLRUCache α mc t)) ∧
    (∀ (α : Type) (now : Int) (c : LruCache.LRUCache α) (k : String) (v : α),
       LruCache.Inv c → LruCache.Inv (LruCache.Update now c k v)) ∧
    (∀ (α : Type) (now : Int) (c : LruCache.LRUCache α) (k : String),
       LruCache.Inv c → LruCache.Inv (LruCache.Get now c k).2) ∧
    (∀ (α : Type) (c : LruCache.LRUCache α) (k : String),
       LruCache.Inv c → LruCache.Inv (LruCache.Delete c k).2) ∧
    (∀ (α : Type) (c : LruCache.LRUCache α), LruCache.Inv c →
       LruCache.GetKeyCount c = (c.lruMap.length : Int)) := by
  refine ⟨?_, ?_, ?_, ?_, ?_, ?_, ?_, ?_, ?_⟩
  · intro α mc t
    exact ⟨by simp [Lru.NewLRUCache], by simp [Lru.NewLRUCache],
           by simp [Lru.NewLRUCache]⟩
  · intro α now c k v h
    exact Lru.inv_Update now c k v h
  · intro α now c k h
    exact Lru.inv_Get now c k h
  · intro α c h
    have hlen := h.1.length_eq
    rw [List.length_map] at hlen
    show c.keyCount = (c.lruMap.length : Int)
    rw [h.2.2]
    omega
  · intro α mc t
    exact ⟨by simp [LruCache.NewLRUCache], by simp [LruCache.NewLRUCache],
           by simp [LruCache.NewLRUCache]⟩
  · intro α now c k v h
    exact LruCache.inv_Update' now c k v h
  · intro α now c k h
    exact LruCache.inv_Get' now c k h
  · intro α c k h
    exact LruCache.inv_Delete c k h
  · intro α c h
    have hlen := h.1.length_eq
    rw [List.length_map] at hlen
    show c.keyCount = (c.lruMap.length : Int)
    rw [h.2.2]
    omega

/-- C6, witness: the invariant-preservation parts applied at concrete
states of both variants. -/
theorem C6_witness :
    Lru.Inv (Lru.Update 5 (Lru.NewLRUCache Nat 2 10) "a" 1) ∧
    LruCache.Inv (LruCache.Delete lazyOneEntry "a").2 :=
  ⟨C6_bijection_invariant.2.1 Nat 5 (Lru.NewLRUCache Nat 2 10) "a" 1
     (by decide),
   (C6_bijection_invariant.2.2.2.2.2.2.2.1 Nat lazyOneEntry "a" (by decide))⟩

/-- C8: in both variants every `Get` — including one on an absent key —
increments the request counter by exactly one, and `Update` never changes
the request or hit counter. -/
theorem C8_counter_discipline :
    (∀ (α : Type) (now : Int) (c : Lru.LRUCache α) (k : String),
       Lru.GetReqCount (Lru.Get now c k).2 = Lru.GetReqCount c + 1) ∧
    (∀ (α : Type) (now : Int) (c : LruCache.LRUCache α) (k : String),
       LruCache.GetTotalReqTimes (LruCache.Get now c k).2
         = LruCache.GetTotalReqTimes c + 1) ∧
    (∀ (α : Type) (now : Int) (c : Lru.LRUCache α) (k : String) (v : α),
       Lru.GetReqCount (Lru.Update now c k v) = Lru.GetReqCount c ∧
       Lru.GetHitCount (Lru.Update now c k v) = Lru.GetHitCount c) ∧
    (∀ (α : Type) (now : Int) (c : LruCache.LRUCache α) (k : String) (v : α),
       LruCache.GetTotalReqTimes (LruCache.Update now c k v)
         = LruCache.GetTotalReqTimes c ∧
       LruCache.GetTotalHitTimes (LruCache.Update now c k v)
         = LruCache.GetTotalHitTimes c) := by
  refine ⟨?_, ?_, ?_, ?_⟩
  · intro α now c k
    unfold Lru.Get
    split
    · split
      · split <;> rfl
      · rfl
    · rfl
  · intro α now c k
    unfold LruCache.Get
    split
    · split
      · split <;> rfl
      · rfl
    · rfl
  · intro α now c k v
    unfold Lru.Update
    split <;> exact ⟨rfl, rfl⟩
  · intro α now c k v
    unfold LruCache.Update
    split <;> exact ⟨rfl, rfl⟩

theorem filter_eraseP_ne {α : Type} (k : String) (l : List (Entry α)) :
    (l.eraseP (fun e => e.key == k)).filter (fun e => !(e.key == k))
      = l.filter (fun e => !(e.key == k)) := by
  induction l with
  | nil => rfl
  | cons e rest ih =>
    by_cases h : e.key = k
    · simp [List.eraseP_cons, List.filter_cons, h]
    · simp [List.eraseP_cons, List.filter_cons, h, ih]

/-- C7: `Delete` always increments the request counter; on a present key it
returns success, increments the hit counter, decrements the live count, and
removes the entry (no key-`k` entry survives in either structure, given the
bijection invariant); on an absent key it returns `NotFound` and leaves the
hit counter unchanged. -/
theorem C7_delete_spec :
    ∀ (α : Type) (c : LruCache.LRUCache α) (k : String),
      LruCache.GetTotalReqTimes (LruCache.Delete c k).2
        = LruCache.GetTotalReqTimes c + 1 ∧
      (k ∈ c.lruMap →
        (LruCache.Delete c k).1 = true ∧
        LruCache.GetTotalHitTimes (LruCache.Delete c k).2
          = LruCache.GetTotalHitTimes c + 1 ∧
        LruCache.GetKeyCount (LruCache.Delete c k).2
          = LruCache.GetKeyCount c - 1 ∧
        (LruCache.Inv c →
          k ∉ (LruCache.Delete c k).2.lruMap ∧
          ∀ e ∈ (LruCache.Delete c k).2.lruList, e.key ≠ k)) ∧
      (k ∉ c.lruMap →
        (LruCache.Delete c k).1 = false ∧
        LruCache.GetTotalHitTimes (LruCache.Delete c k).2
          = LruCache.GetTotalHitTimes c) := by
  intro α c k
  unfold LruCache.Delete
  split
  next hmem =>
    refine ⟨rfl, fun _ => ⟨rfl, rfl, rfl, fun hinv => ⟨?_, ?_⟩⟩,
            fun habs => absurd hmem habs⟩
    · have hnm : c.lruMap.Nodup := hinv.1.nodup_iff.2 hinv.2.1
      show k ∉ c.lruMap.erase k
      intro hk
      exact ((hnm.mem_erase_iff).1 hk).1 rfl
    · intro e he
      exact key_ne_of_mem_eraseP hinv.2.1 he
  next hmem =>
    exact ⟨rfl, fun h => absurd h hmem, fun _ => ⟨rfl, rfl⟩⟩

/-- C7, witness: `Delete` on the present key `"a"` and then on the absent
key `"b"` of a concrete one-entry state. -/
theorem C7_witness :
    "a" ∈ lazyOneEntry.lruMap ∧
    (LruCache.Delete lazyOneEntry "a").1 = true ∧
    (LruCache.Delete lazyOneEntry "b").1 = false :=
  ⟨by decide,
   ((C7_delete_spec Nat lazyOneEntry "a").2.1 (by decide)).1,
   ((C7_delete_spec Nat lazyOneEntry "b").2.2 (by decide)).1⟩

/-- C10: `Delete` never runs the eviction pass.  Restricted to keys other
than the deleted one, the recency list — each surviving entry's value,
`createAt`, and relative order — is unchanged; capacity, ttl and the other
keys' map membership are unchanged; and deleting an absent key changes
nothing but the request counter. -/
theorem C10_delete_frame :
    ∀ (α : Type) (c : LruCache.LRUCache α) (k : String),
      (LruCache.Delete c k).2.lruList.filter (fun e => !(e.key == k))
        = c.lruList.filter (fun e => !(e.key == k)) ∧
      (LruCache.Delete c k).2.maxCount = c.maxCount ∧
      (LruCache.Delete c k).2.ttl = c.ttl ∧
      (∀ k' : String, k' ≠ k →
        (k' ∈ (LruCache.Delete c k).2.lruMap ↔ k' ∈ c.lruMap)) ∧
      (k ∉ c.lruMap →
        (LruCache.Delete c k).2
          = { c with totalReqTimes := c.totalReqTimes + 1 }) := by
  intro α c k
  unfold LruCache.Delete
  split
  next hmem =>
    refine ⟨filter_eraseP_ne k c.lruList, rfl, rfl, ?_,
            fun habs => absurd hmem habs⟩
    intro k' hk'
    show k' ∈ c.lruMap.erase k ↔ k' ∈ c.lruMap
    exact List.mem_erase_of_ne hk'
  next hmem =>
    exact ⟨rfl, rfl, rfl, fun k' _ => Iff.rfl, fun _ => rfl⟩

/-- C10, witness: deleting the absent key `"b"` from a concrete state only
bumps the request counter, and key `"a"` stays in the map. -/
theorem C10_witness :
    (LruCache.Delete lazyOneEntry "b").2
      = { lazyOneEntry with
            totalReqTimes := lazyOneEntry.totalReqTimes + 1 } ∧
    ("a" ∈ (LruCache.Delete lazyOneEntry "b").2.lruMap
       ↔ "a" ∈ lazyOneEntry.lruMap) :=
  ⟨(C10_delete_frame Nat lazyOneEntry "b").2.2.2.2 (by decide),
   (C10_delete_frame Nat lazyOneEntry "b").2.2.2.1 "a" (by decide)⟩

/-- C9: with `ttlSeconds ≤ 0` and a non-decreasing clock (every stored
entry was created no later than `now`), every `Get` of either variant
misses — it returns `NotFound` and never increments the hit counter.  (The
embedding is total: no division or panic exists on any path.) -/
theorem C9_nonpositive_ttl :
    ∀ (α : Type) (now : Int) (k : String),
      (∀ (c : Lru.LRUCache α), c.ttl ≤ 0 →
        (∀ e ∈ c.lruList, e.createAt ≤ now) →
        (Lru.Get now c k).1 = none ∧
        Lru.GetHitCount (Lru.Get now c k).2 = Lru.GetHitCount c) ∧
      (∀ (c : LruCache.LRUCache α), c.ttl ≤ 0 →
        (∀ e ∈ c.lruList, e.createAt ≤ now) →
        (LruCache.Get now c k).1 = none ∧
        LruCache.GetTotalHitTimes (LruCache.Get now c k).2
          = LruCache.GetTotalHitTimes c) := by
  intro α now k
  constructor
  · intro c httl hage
    unfold Lru.Get
    split
    next hmem =>
      split
      next item hfind =>
        have hitem := hage item (List.mem_of_find?_eq_some hfind)
        rw [if_neg (by omega : ¬item.createAt + c.ttl > now)]
        exact ⟨rfl, rfl⟩
      next => exact ⟨rfl, rfl⟩
    next => exact ⟨rfl, rfl⟩
  · intro c httl hage
    unfold LruCache.Get
    split
    next hmem =>
      split
      next item hfind =>
        have hitem := hage item (List.mem_of_find?_eq_some hfind)
        rw [if_neg (by omega : ¬item.createAt + c.ttl > now)]
        exact ⟨rfl, rfl⟩
      next => exact ⟨rfl, rfl⟩
    next => exact ⟨rfl, rfl⟩

/-- C9, witness: a key stored at time 0 in caches built with `ttl = 0`
misses at time 5 in both variants. -/
theorem C9_witness :
    (Lru.Get 5 (Lru.Update 0 (Lru.NewLRUCache Nat 10 0) "a" 7) "a").1
      = none ∧
    (LruCache.Get 5
       (LruCache.Update 0 (LruCache.NewLRUCache Nat 10 0) "a" 7) "a").1
      = none :=
  ⟨((C9_nonpositive_ttl Nat 5 "a").1 _ (by decide) (by decide)).1,
   ((C9_nonpositive_ttl Nat 5 "a").2 _ (by decide) (by decide)).1⟩

/-! ### Update sequences and the capacity bound -/

namespace Lru

/-- A sequence of `Update` calls `(time, key, value)`, applied in order. -/
def runUpdates {α : Type} (c : LRUCache α) :
    List (Int × String × α) → LRUCache α
  | [] => c
  | (t, k, v) :: rest => runUpdates (Update t c k v) rest

theorem update_maxCount {α : Type} (now : Int) (c : LRUCache α) (k : String)
    (v : α) : (Update now c k v).maxCount = c.maxCount := by
  unfold Update
  split <;> rfl

theorem update_ttl {α : Type} (now : Int) (c : LRUCache α) (k : String)
    (v : α) : (Update now c k v).ttl = c.ttl := by
  unfold Update
  split <;> rfl

theorem checkWithLocked_capacity {α : Type} (now : Int) (c : LRUCache α)
    (hinv : Inv c) (hmax : 0 ≤ c.maxCount) :
    (checkWithLocked now c).keyCount ≤ c.maxCount := by
  rcases checkWithLocked_post now c with h | h
  · have hinv' := inv_checkWithLocked now c hinv
    rw [hinv'.2.2, h]
    simpa using hmax
  · exact h.1

theorem update_keyCount_le {α : Type} (now : Int) (c : LRUCache α)
    (k : String) (v : α) (hinv : Inv c) (hmax : 0 ≤ c.maxCount) :
    (Update now c k v).keyCount ≤ c.maxCount := by
  obtain ⟨hP, hN, hC⟩ := hinv
  unfold Update
  split
  next hmem =>
    exact checkWithLocked_capacity now _
      (tripleInv_moveToBack ⟨k, v, now⟩ rfl hmem hP hN hC) hmax
  next hmem =>
    exact checkWithLocked_capacity now _
      (tripleInv_insertNew ⟨k, v, now⟩ rfl hmem hP hN hC) hmax

theorem runUpdates_capacity {α : Type} :
    ∀ (ops : List (Int × String × α)) (c : LRUCache α),
      Inv c → 0 ≤ c.maxCount → c.keyCount ≤ c.maxCount →
      (runUpdates c ops).keyCount ≤ c.maxCount := by
  intro ops
  induction ops with
  | nil => intro c _ _ h3; exact h3
  | cons op rest ih =>
    intro c h1 h2 h3
    obtain ⟨t, k, v⟩ := op
    rw [runUpdates]
    have hmax := update_maxCount t c k v
    have := ih (Update t c k v) (inv_Update t c k v h1)
      (hmax ▸ h2) (hmax ▸ update_keyCount_le t c k v h1 h2)
    rwa [hmax] at this

end Lru

namespace LruCache

/-- A sequence of `Update` calls `(time, key, value)`, applied in order. -/
def runUpdates {α : Type} (c : LRUCache α) :
    List (Int × String × α) → LRUCache α
  | [] => c
  | (t, k, v) :: rest => runUpdates (Update t c k v) rest

theorem update_maxCount' {α : Type} (now : Int) (c : LRUCache α) (k : String)
    (v : α) : (Update now c k v).maxCount = c.maxCount := by
  unfold Update
  split <;> rfl

theorem update_ttl' {α : Type} (now : Int) (c : LRUCache α) (k : String)
    (v : α) : (Update now c k v).ttl = c.ttl := by
  unfold Update
  split <;> rfl

theorem checkWithLocked_capacity' {α : Type} (c : LRUCache α)
    (hinv : Inv c) (hmax : 0 ≤ c.maxCount) :
    (checkWithLocked c).keyCount ≤ c.maxCount := by
  rcases checkWithLocked_post' c with h | h
  · have hinv' := inv_checkWithLocked' c hinv
    rw [hinv'.2.2, h]
    simpa using hmax
  · exact h

theorem update_keyCount_le' {α : Type} (now : Int) (c : LRUCache α)
    (k : String) (v : α) (hinv : Inv c) (hmax : 0 ≤ c.maxCount)
    (hcnt : c.keyCount ≤ c.maxCount) :
    (Update now c k v).keyCount ≤ c.maxCount := by
  obtain ⟨hP, hN, hC⟩ := hinv
  unfold Update
  split
  next hmem => exact hcnt
  next hmem =>
    exact checkWithLocked_capacity' _
      (tripleInv_insertNew ⟨k, v, now⟩ rfl hmem hP hN hC) hmax

theorem runUpdates_capacity' {α : Type} :
    ∀ (ops : List (Int × String × α)) (c : LRUCache α),
      Inv c → 0 ≤ c.maxCount → c.keyCount ≤ c.maxCount →
      (runUpdates c ops).keyCount ≤ c.maxCount := by
  intro ops
  induction ops with
  | nil => intro c _ _ h3; exact h3
  | cons op rest ih =>
    intro c h1 h2 h3
    obtain ⟨t, k, v⟩ := op
    rw [runUpdates]
    have hmax := update_maxCount' t c k v
    have := ih (Update t c k v) (inv_Update' t c k v h1)
      (hmax ▸ h2) (hmax ▸ update_keyCount_le' t c k v h1 h2 h3)
    rwa [hmax] at this

end LruCache

/-- C3, counterexample: the claim holds for no fresh cache of negative
capacity.  With capacity −1, the first `Update` inserts and the pass then
evicts everything, leaving `LiveCount() = 0`, and `0 ≤ −1` is false — in
both variants. -/
theorem C3_counterexample :
    ¬ Lru.GetKeysCount (Lru.Update 0 (Lru.NewLRUCache Nat (-1) 10) "a" 0)
        ≤ (Lru.NewLRUCache Nat (-1) 10).maxCount ∧
    ¬ LruCache.GetKeyCount
        (LruCache.Update 0 (LruCache.NewLRUCache Nat (-1) 10) "a" 0)
        ≤ (LruCache.NewLRUCache Nat (-1) 10).maxCount := by
  decide

/-- C3, amended: for every freshly constructed cache with capacity ≥ 0 and
every sequence of `Update` calls (distinct keys or not), after each call
`LiveCount() ≤ capacity`, in both variants.  (Each prefix of a sequence is
itself a sequence, so the bound holds after every intermediate call.) -/
theorem C3_capacity_bound :
    (∀ (α : Type) (maxCount ttl : Int) (ops : List (Int × String × α)),
       0 ≤ maxCount →
       Lru.GetKeysCount (Lru.runUpdates (Lru.NewLRUCache α maxCount ttl) ops)
         ≤ maxCount) ∧
    (∀ (α : Type) (maxCount ttl : Int) (ops : List (Int × String × α)),
       0 ≤ maxCount →
       LruCache.GetKeyCount
           (LruCache.runUpdates (LruCache.NewLRUCache α maxCount ttl) ops)
         ≤ maxCount) := by
  constructor
  · intro α maxCount ttl ops hmax
    exact Lru.runUpdates_capacity ops (Lru.NewLRUCache α maxCount ttl)
      ⟨by simp [Lru.NewLRUCache], by simp [Lru.NewLRUCache],
       by simp [Lru.NewLRUCache]⟩ hmax (by simpa [Lru.NewLRUCache] using hmax)
  · intro α maxCount ttl ops hmax
    exact LruCache.runUpdates_capacity' ops (LruCache.NewLRUCache α maxCount ttl)
      ⟨by simp [LruCache.NewLRUCache], by simp [LruCache.NewLRUCache],
       by simp [LruCache.NewLRUCache]⟩ hmax
      (by simpa [LruCache.NewLRUCache] using hmax)

/-- C3, witness: three distinct-key `Update`s into capacity-2 caches leave
at most 2 live entries in both variants. -/
theorem C3_witness :
    Lru.GetKeysCount (Lru.runUpdates (Lru.NewLRUCache Nat 2 10)
        [(0, "a", 1), (1, "b", 2), (2, "c", 3)]) ≤ 2 ∧
    LruCache.GetKeyCount (LruCache.runUpdates (LruCache.NewLRUCache Nat 2 10)
        [(0, "a", 1), (1, "b", 2), (2, "c", 3)]) ≤ 2 :=
  ⟨C3_capacity_bound.1 Nat 2 10 [(0, "a", 1), (1, "b", 2), (2, "c", 3)]
     (by decide),
   C3_capacity_bound.2 Nat 2 10 [(0, "a", 1), (1, "b", 2), (2, "c", 3)]
     (by decide)⟩

namespace Lru

theorem sweep_map_subset {α : Type} (now maxCount ttl : Int) :
    ∀ (l : List (Entry α)) (m : List String) (cnt : Int) {x : String},
      x ∈ (sweep now maxCount ttl l m cnt).2.1 → x ∈ m := by
  intro l
  induction l with
  | nil => intro m cnt x h; exact h
  | cons e rest ih =>
    intro m cnt x h
    rw [sweep] at h
    split at h
    · exact h
    · exact List.mem_of_mem_erase (ih _ _ h)

theorem checkWithLocked_map_subset {α : Type} (now : Int) (c : LRUCache α)
    {x : String} (h : x ∈ (checkWithLocked now c).lruMap) : x ∈ c.lruMap :=
  sweep_map_subset now c.maxCount c.ttl c.lruList c.lruMap c.keyCount h

end Lru

/-- C4, counterexample: in the `src/lru.go` variant, `Get` on the
never-inserted key `"b"` at time 100 triggers the deferred eviction pass,
which removes the expired entry `"a"`: `LiveCount()` drops from 1 to 0, so
repeated misses do mutate `LiveCount`. -/
theorem C4_counterexample :
    "b" ∉ eagerOneEntry.lruMap ∧
    Lru.GetKeysCount eagerOneEntry = 1 ∧
    (Lru.Get 100 eagerOneEntry "b").1 = none ∧
    Lru.GetKeysCount (Lru.Get 100 eagerOneEntry "b").2 = 0 := by
  decide

/-- C4, amended: `Get` on a key absent from the index always returns
`NotFound` and never increments the hit counter.  In the
`src/lru_cache.go` variant the whole state except the request counter is
unchanged (so `LiveCount` is untouched); in the `src/lru.go` variant the
deferred eviction pass may remove expired or over-capacity entries, so
`LiveCount` may decrease but never increases. -/
theorem C4_idempotent_miss :
    (∀ (α : Type) (now : Int) (c : LruCache.LRUCache α) (k : String),
       k ∉ c.lruMap →
       (LruCache.Get now c k).1 = none ∧
       (LruCache.Get now c k).2
         = { c with totalReqTimes := c.totalReqTimes + 1 }) ∧
    (∀ (α : Type) (now : Int) (c : Lru.LRUCache α) (k : String),
       k ∉ c.lruMap →
       (Lru.Get now c k).1 = none ∧
       Lru.GetKeysCount (Lru.Get now c k).2 ≤ Lru.GetKeysCount c ∧
       Lru.GetHitCount (Lru.Get now c k).2 = Lru.GetHitCount c) := by
  constructor
  · intro α now c k hmem
    unfold LruCache.Get
    rw [if_neg hmem]
    exact ⟨rfl, rfl⟩
  · intro α now c k hmem
    unfold Lru.Get
    rw [if_neg hmem]
    exact ⟨rfl, Lru.checkWithLocked_keyCount_le now _, rfl⟩

/-- C4, witness: a miss on the never-inserted key `"b"` in concrete states
of both variants. -/
theorem C4_witness :
    (LruCache.Get 0 lazyOneEntry "b").1 = none ∧
    (Lru.Get 0 eagerOneEntry "b").1 = none :=
  ⟨((C4_idempotent_miss.1 Nat 0 lazyOneEntry "b") (by decide)).1,
   ((C4_idempotent_miss.2 Nat 0 eagerOneEntry "b") (by decide)).1⟩

/-- C5, counterexample: in the `src/lru.go` variant the live count can drop
by more than one.  In `eagerTwoEntries` both entries are expired at
`now = 100`; `Get` on the stale key `"a"` removes it and then the deferred
eviction pass also removes the expired `"b"`: `LiveCount()` goes from 2 to
0, not to 1. -/
theorem C5_counterexample :
    "a" ∈ eagerTwoEntries.lruMap ∧
    eagerTwoEntries.lruList.find? (fun e => e.key == "a")
      = some ⟨"a", 7, 0⟩ ∧
    (⟨"a", 7, 0⟩ : Entry Nat).createAt + eagerTwoEntries.ttl ≤ 100 ∧
    Lru.GetKeysCount eagerTwoEntries = 2 ∧
    (Lru.Get 100 eagerTwoEntries "a").1 = none ∧
    Lru.GetKeysCount (Lru.Get 100 eagerTwoEntries "a").2 = 0 := by
  decide

/-- C5, amended: for a present stale key `k` (`now − createdAt ≥
ttlSeconds`), `Get(k)` removes that entry from both the index and the
recency order, returns `NotFound`, does not increment the hit counter, and
increments the request counter.  The removal decrements the live count by
one; in the `src/lru_cache.go` variant the net change is exactly −1, while
in the `src/lru.go` variant the deferred eviction pass may remove further
expired or over-capacity entries, so the net live count decreases by at
least one. -/
theorem C5_stale_get :
    (∀ (α : Type) (now : Int) (c : LruCache.LRUCache α) (k : String),
       LruCache.Inv c → k ∈ c.lruMap →
       (∀ e ∈ c.lruList, e.key = k → e.createAt + c.ttl ≤ now) →
       (LruCache.Get now c k).1 = none ∧
       LruCache.GetKeyCount (LruCache.Get now c k).2
         = LruCache.GetKeyCount c - 1 ∧
       LruCache.GetTotalHitTimes (LruCache.Get now c k).2
         = LruCache.GetTotalHitTimes c ∧
       LruCache.GetTotalReqTimes (LruCache.Get now c k).2
         = LruCache.GetTotalReqTimes c + 1 ∧
       k ∉ (LruCache.Get now c k).2.lruMap ∧
       (∀ e ∈ (LruCache.Get now c k).2.lruList, e.key ≠ k)) ∧
    (∀ (α : Type) (now : Int) (c : Lru.LRUCache α) (k : String),
       Lru.Inv c → k ∈ c.lruMap →
       (∀ e ∈ c.lruList, e.key = k → e.createAt + c.ttl ≤ now) →
       (Lru.Get now c k).1 = none ∧
       Lru.GetKeysCount (Lru.Get now c k).2 ≤ Lru.GetKeysCount c - 1 ∧
       Lru.GetHitCount (Lru.Get now c k).2 = Lru.GetHitCount c ∧
       Lru.GetReqCount (Lru.Get now c k).2 = Lru.GetReqCount c + 1 ∧
       k ∉ (Lru.Get now c k).2.lruMap ∧
       (∀ e ∈ (Lru.Get now c k).2.lruList, e.key ≠ k)) := by
  constructor
  · intro α now c k hinv hmem hstale
    have hnm : c.lruMap.Nodup := hinv.1.nodup_iff.2 hinv.2.1
    unfold LruCache.Get
    rw [if_pos hmem]
    split
    next item hfind =>
      have hk : item.key = k := by simpa using List.find?_some hfind
      have hitem := List.mem_of_find?_eq_some hfind
      rw [if_neg (by have := hstale item hitem hk; omega :
            ¬item.createAt + c.ttl > now)]
      refine ⟨rfl, rfl, rfl, rfl, ?_, ?_⟩
      · show k ∉ c.lruMap.erase k
        intro hx
        exact ((hnm.mem_erase_iff).1 hx).1 rfl
      · intro e he
        exact key_ne_of_mem_eraseP hinv.2.1 he
    next hfind =>
      exfalso
      obtain ⟨e, he, hek⟩ := List.mem_map.1 (hinv.1.mem_iff.1 hmem)
      exact absurd (by simp [hek] : (fun x => x.key == k) e = true)
        (by simpa using (List.find?_eq_none.1 hfind) e he)
  · intro α now c k hinv hmem hstale
    have hnm : c.lruMap.Nodup := hinv.1.nodup_iff.2 hinv.2.1
    unfold Lru.Get
    rw [if_pos hmem]
    split
    next item hfind =>
      have hk : item.key = k := by simpa using List.find?_some hfind
      have hitem := List.mem_of_find?_eq_some hfind
      rw [if_neg (by have := hstale item hitem hk; omega :
            ¬item.createAt + c.ttl > now)]
      refine ⟨rfl, Lru.checkWithLocked_keyCount_le now _, rfl, rfl, ?_, ?_⟩
      · intro hx
        have hx' := Lru.checkWithLocked_map_subset now _ hx
        rw [hk] at hx'
        exact ((hnm.mem_erase_iff).1 hx').1 rfl
      · intro e he
        exact key_ne_of_mem_eraseP hinv.2.1
          (Lru.checkWithLocked_mem now _ he)
    next hfind =>
      exfalso
      obtain ⟨e, he, hek⟩ := List.mem_map.1 (hinv.1.mem_iff.1 hmem)
      exact absurd (by simp [hek] : (fun x => x.key == k) e = true)
        (by simpa using (List.find?_eq_none.1 hfind) e he)

/-- C5, witness: a stale `Get` at time 100 on the concrete one-entry states
of both variants returns `NotFound` and drops the live count. -/
theorem C5_witness :
    (LruCache.Get 100 lazyOneEntry "a").1 = none ∧
    LruCache.GetKeyCount (LruCache.Get 100 lazyOneEntry "a").2
      = LruCache.GetKeyCount lazyOneEntry - 1 ∧
    (Lru.Get 100 eagerOneEntry "a").1 = none :=
  ⟨((C5_stale_get.1 Nat 100 lazyOneEntry "a") (by decide) (by decide)
      (by decide)).1,
   ((C5_stale_get.1 Nat 100 lazyOneEntry "a") (by decide) (by decide)
      (by decide)).2.1,
   ((C5_stale_get.2 Nat 100 eagerOneEntry "a") (by decide) (by decide)
      (by decide)).1⟩

/-! ### After-Update characterization and TTL correctness -/

namespace LruCache

theorem sweep_mem' {α : Type} (maxCount : Int) :
    ∀ (l : List (Entry α)) (m : List String) (cnt : Int) {e : Entry α},
      e ∈ (sweep maxCount l m cnt).1 → e ∈ l := by
  intro l
  induction l with
  | nil => intro m cnt e h; exact absurd h (by simp [sweep])
  | cons x rest ih =>
    intro m cnt e h
    rw [sweep] at h
    split at h
    · exact List.mem_cons_of_mem x (ih _ _ h)
    · exact h

theorem checkWithLocked_mem' {α : Type} (c : LRUCache α)
    {e : Entry α} (h : e ∈ (checkWithLocked c).lruList) : e ∈ c.lruList :=
  sweep_mem' c.maxCount c.lruList c.lruMap c.keyCount h

end LruCache

theorem Lru.update_entry_unique {α : Type} (now : Int) (c : Lru.LRUCache α)
    (k : String) (v : α) (hinv : Lru.Inv c) :
    ∀ e ∈ (Lru.Update now c k v).lruList, e.key = k → e = ⟨k, v, now⟩ := by
  intro e he hk
  unfold Lru.Update at he
  split at he
  next hmem =>
    rcases List.mem_append.1 (Lru.checkWithLocked_mem now _ he) with h | h
    · exact absurd hk (key_ne_of_mem_eraseP hinv.2.1 h)
    · simpa using h
  next hmem =>
    rcases List.mem_append.1 (Lru.checkWithLocked_mem now _ he) with h | h
    · exact absurd (hinv.1.mem_iff.2 (hk ▸ List.mem_map_of_mem Entry.key h))
        hmem
    · simpa using h

theorem LruCache.update_entry_unique' {α : Type} (now : Int)
    (c : LruCache.LRUCache α) (k : String) (v : α) (hinv : LruCache.Inv c) :
    ∀ e ∈ (LruCache.Update now c k v).lruList, e.key = k →
      e = ⟨k, v, now⟩ := by
  intro e he hk
  unfold LruCache.Update at he
  split at he
  next hmem =>
    rcases List.mem_append.1 he with h | h
    · exact absurd hk (key_ne_of_mem_eraseP hinv.2.1 h)
    · simpa using h
  next hmem =>
    rcases List.mem_append.1 (LruCache.checkWithLocked_mem' _ he) with h | h
    · exact absurd (hinv.1.mem_iff.2 (hk ▸ List.mem_map_of_mem Entry.key h))
        hmem
    · simpa using h

/-- C2: TTL correctness in both variants.  If `Update(k, v)` runs at time
`T` and the next touch of `k` is `Get(k)` at time `T'`: when
`T' − T ≥ ttlSeconds` the `Get` returns `NotFound`; when `T' − T <
ttlSeconds` and no eviction removed `k` in between (i.e. `k` is still in
the index), the `Get` returns `v`. -/
theorem C2_ttl_correctness :
    (∀ (α : Type) (c : Lru.LRUCache α) (k : String) (v : α) (T T' : Int),
       Lru.Inv c →
       (T' - T ≥ c.ttl →
          (Lru.Get T' (Lru.Update T c k v) k).1 = none) ∧
       (T' - T < c.ttl → k ∈ (Lru.Update T c k v).lruMap →
          (Lru.Get T' (Lru.Update T c k v) k).1 = some v)) ∧
    (∀ (α : Type) (c : LruCache.LRUCache α) (k : String) (v : α)
       (T T' : Int),
       LruCache.Inv c →
       (T' - T ≥ c.ttl →
          (LruCache.Get T' (LruCache.Update T c k v) k).1 = none) ∧
       (T' - T < c.ttl → k ∈ (LruCache.Update T c k v).lruMap →
          (LruCache.Get T' (LruCache.Update T c k v) k).1 = some v)) := by
  constructor
  · intro α c k v T T' hinv
    have hinv' := Lru.inv_Update T c k v hinv
    have httl : (Lru.Update T c k v).ttl = c.ttl := Lru.update_ttl T c k v
    have huniq := Lru.update_entry_unique T c k v hinv
    constructor
    · intro hge
      unfold Lru.Get
      split
      next hmem =>
        split
        next item hfind =>
          have hk : item.key = k := by simpa using List.find?_some hfind
          have heq := huniq item (List.mem_of_find?_eq_some hfind) hk
          rw [if_neg (by rw [heq, httl]; show ¬T + c.ttl > T'; omega)]
        next => rfl
      next => rfl
    · intro hlt hmem
      unfold Lru.Get
      rw [if_pos hmem]
      split
      next item hfind =>
        have hk : item.key = k := by simpa using List.find?_some hfind
        have heq := huniq item (List.mem_of_find?_eq_some hfind) hk
        rw [if_pos (by rw [heq, httl]; show T + c.ttl > T'; omega)]
        simp [heq]
      next hfind =>
        exfalso
        obtain ⟨e, he, hek⟩ := List.mem_map.1 (hinv'.1.mem_iff.1 hmem)
        exact absurd (by simp [hek] : (fun x => x.key == k) e = true)
          (by simpa using (List.find?_eq_none.1 hfind) e he)
  · intro α c k v T T' hinv
    have hinv' := LruCache.inv_Update' T c k v hinv
    have httl : (LruCache.Update T c k v).ttl = c.ttl :=
      LruCache.update_ttl' T c k v
    have huniq := LruCache.update_entry_unique' T c k v hinv
    constructor
    · intro hge
      unfold LruCache.Get
      split
      next hmem =>
        split
        next item hfind =>
          have hk : item.key = k := by simpa using List.find?_some hfind
          have heq := huniq item (List.mem_of_find?_eq_some hfind) hk
          rw [if_neg (by rw [heq, httl]; show ¬T + c.ttl > T'; omega)]
        next => rfl
      next => rfl
    · intro hlt hmem
      unfold LruCache.Get
      rw [if_pos hmem]
      split
      next item hfind =>
        have hk : item.key = k := by simpa using List.find?_some hfind
        have heq := huniq item (List.mem_of_find?_eq_some hfind) hk
        rw [if_pos (by rw [heq, httl]; show T + c.ttl > T'; omega)]
        simp [heq]
      next hfind =>
        exfalso
        obtain ⟨e, he, hek⟩ := List.mem_map.1 (hinv'.1.mem_iff.1 hmem)
        exact absurd (by simp [hek] : (fun x => x.key == k) e = true)
          (by simpa using (List.find?_eq_none.1 hfind) e he)

/-- C2, witness: with `ttl = 10`, a key written at time 0 hits with its
value at time 5 and misses at time 10, in both variants. -/
theorem C2_witness :
    (Lru.Get 10 (Lru.Update 0 (Lru.NewLRUCache Nat 5 10) "a" 7) "a").1
      = none ∧
    (Lru.Get 5 (Lru.Update 0 (Lru.NewLRUCache Nat 5 10) "a" 7) "a").1
      = some 7 ∧
    (LruCache.Get 10
       (LruCache.Update 0 (LruCache.NewLRUCache Nat 5 10) "a" 7) "a").1
      = none ∧
    (LruCache.Get 5
       (LruCache.Update 0 (LruCache.NewLRUCache Nat 5 10) "a" 7) "a").1
      = some 7 :=
  ⟨((C2_ttl_correctness.1 Nat (Lru.NewLRUCache Nat 5 10) "a" 7 0 10)
      (by decide)).1 (by decide),
   ((C2_ttl_correctness.1 Nat (Lru.NewLRUCache Nat 5 10) "a" 7 0 5)
      (by decide)).2 (by decide) (by decide),
   ((C2_ttl_correctness.2 Nat (LruCache.NewLRUCache Nat 5 10) "a" 7 0 10)
      (by decide)).1 (by decide),
   ((C2_ttl_correctness.2 Nat (LruCache.NewLRUCache Nat 5 10) "a" 7 0 5)
      (by decide)).2 (by decide) (by decide)⟩
